import Mathlib

namespace SpamChess

/-!
# Verification of the spam-chess move-resolution core

Shallow embedding of the repository's move-submission handler
(`src/app/api/move/route.ts`), stats aggregator (`src/lib/stats.ts`) and
cinematic-replay kill-frame synthesis (`useCinematicReplay`), together with
theorems settling the specification claims about them.

The chess.js rules engine is an external capability consumed by the code, so
legal-move generation and engine move application are parameters (`Engine`);
everything else — FEN string surgery, board piece placement updates via
`remove`/`put`, the matcher, the Lua commit scripts, the retry loop, the stats
computation and the replay frame synthesis — is translated from the source.
-/

/-! ## String helpers

`cleanMove` mirrors `m.replace(/[x=#+]/g, "").toLowerCase()`: the regex only
removes the literal (lowercase) characters, and lowering happens afterwards,
so we filter first and lowercase second. -/

def cleanMove (m : String) : String :=
  String.mk (((m.toList.filter fun c => !(c == 'x' || c == '=' || c == '#' || c == '+'))).map
    Char.toLower)

/-- JavaScript `s.split(" ")` on a character list: splits at every space,
keeping empty fragments. -/
def splitCh : List Char → List (List Char)
  | [] => [[]]
  | c :: cs =>
    if c = ' ' then [] :: splitCh cs
    else
      match splitCh cs with
      | [] => [[c]]
      | w :: ws => (c :: w) :: ws

/-- JavaScript `parts.join(" ")` on character lists. -/
def joinCh : List (List Char) → List Char
  | [] => []
  | [w] => w
  | w :: ws => w ++ ' ' :: joinCh ws

def splitSpaces (s : String) : List String :=
  (splitCh s.toList).map String.mk

/-- Models `fen.split("/")` for the placement field, by the same splitting rule. -/
def splitChSlash : List Char → List (List Char)
  | [] => [[]]
  | c :: cs =>
    if c = '/' then [] :: splitChSlash cs
    else
      match splitChSlash cs with
      | [] => [[c]]
      | w :: ws => (c :: w) :: ws

/-- JavaScript `s.startsWith(pre)` as a structural character-list scan. -/
def chStarts : List Char → List Char → Bool
  | _, [] => true
  | [], _ :: _ => false
  | c :: cs, p :: ps => c == p && chStarts cs ps

def strStarts (s pre : String) : Bool := chStarts s.toList pre.toList

def joinSpaces (l : List String) : String :=
  String.mk (joinCh (l.map String.toList))

/-- JavaScript array index assignment `parts[i] = x`: in-bounds it overwrites,
out of bounds it extends the array, filling holes with empty strings (as
`join` renders holes). -/
def setIdxJS (l : List String) (i : Nat) (x : String) : List String :=
  if i < l.length then l.set i x
  else l ++ List.replicate (i - l.length) "" ++ [x]

/-- Lines 114–116 of the route: split the FEN on spaces, overwrite field 1 with
the submitting team, re-join. -/
def forceTurn (fen team : String) : String :=
  joinSpaces (setIdxJS (splitSpaces fen) 1 team)

/-! ## Board model

chess.js boards are modelled as association lists from square names
(`"a1"` … `"h8"`) to pieces; `remove`/`put` are the placement updates the
route performs on its working copy. -/

structure Piece where
  type : String
  color : String
deriving DecidableEq, Repr

abbrev Board := List (String × Piece)

def boardGet (b : Board) (sq : String) : Option Piece :=
  (b.find? fun e => e.1 == sq).map Prod.snd

def boardErase (b : Board) (sq : String) : Board :=
  b.filter fun e => e.1 != sq

/-- Models `game.remove(sq)`: returns the removed piece and the board without it. -/
def boardRemove (b : Board) (sq : String) : Option Piece × Board :=
  (boardGet b sq, boardErase b sq)

/-- Models `game.put(piece, sq)`. -/
def boardPut (b : Board) (sq : String) (p : Piece) : Board :=
  (sq, p) :: boardErase b sq

def fileChars : List Char := ['a', 'b', 'c', 'd', 'e', 'f', 'g', 'h']

def rankChars : List Char := ['8', '7', '6', '5', '4', '3', '2', '1']

/-- The 64 squares in the scan order of `game.board()`: rank 8 to rank 1,
files a to h — the iteration order of `findKing`'s double loop. -/
def squares64 : List String :=
  rankChars.flatMap fun r => fileChars.map fun f => String.mk [f, r]

structure ChessPos where
  board : Board
  turn : String
  castling : String
  ep : String
  halfmove : String
  fullmove : String
deriving DecidableEq, Repr

def posRemove (g : ChessPos) (sq : String) : Option Piece × ChessPos :=
  let r := boardRemove g.board sq
  (r.1, { g with board := r.2 })

def posPut (g : ChessPos) (sq : String) (p : Piece) : ChessPos :=
  { g with board := boardPut g.board sq p }

/-- Models `findKing` (route lines 30–41): first square in board scan order
holding a king of the given color. -/
def findKing (g : ChessPos) (color : String) : Option String :=
  squares64.find? fun sq =>
    match boardGet g.board sq with
    | some p => p.type == "k" && p.color == color
    | none => false

/-- Models `team === "w" ? "b" : "w"`. -/
def otherTeam (team : String) : String := if team = "w" then "b" else "w"

/-! ## FEN parsing and serialisation (`new Chess(fen)` / `game.fen()`) -/

def pieceOfChar (c : Char) : Option Piece :=
  let l := c.toLower
  if l == 'p' || l == 'n' || l == 'b' || l == 'r' || l == 'q' || l == 'k' then
    some ⟨String.mk [l], if c.isUpper then "w" else "b"⟩
  else none

/-- Parse one placement rank as chess.js load/validateFen treat it: digits
skip files (no two digits in a row), letters place pieces; the file count
must land exactly on 8. Returns file-char/piece pairs. -/
def parseRankChars : List Char → Nat → Bool → Option (List (Char × Piece))
  | [], fileIdx, _ => if fileIdx = 8 then some [] else none
  | c :: rest, fileIdx, prevDigit =>
    if c.isDigit then
      if prevDigit then none
      else
        let n := c.toNat - 48
        if fileIdx + n ≤ 8 then parseRankChars rest (fileIdx + n) true else none
    else
      match pieceOfChar c with
      | some p =>
        if fileIdx < 8 then
          (parseRankChars rest (fileIdx + 1) false).map
            fun b => (fileChars.getD fileIdx ' ', p) :: b
        else none
      | none => none

def parseRanks : List String → List Char → Option Board
  | [], [] => some []
  | rs :: restS, rc :: restC =>
    match parseRankChars rs.toList 0 false, parseRanks restS restC with
    | some entries, some b =>
      some ((entries.map fun e => (String.mk [e.1, rc], e.2)) ++ b)
    | _, _ => none
  | _, _ => none

def parseBoardField (s : String) : Option Board :=
  parseRanks ((splitChSlash s.toList).map String.mk) rankChars

def leadDigitsGo : List Char → Nat → Nat
  | [], acc => acc
  | c :: cs, acc => if c.isDigit then leadDigitsGo cs (acc * 10 + (c.toNat - 48)) else acc

/-- JavaScript `parseInt(s, 10)` restricted to the space-free tokens a FEN
split produces: optional sign, then the maximal leading digit run; `none`
(NaN) when no digit leads. -/
def jsParseInt (s : String) : Option Int :=
  match s.toList with
  | '-' :: c :: rest =>
    if c.isDigit then some (-(leadDigitsGo (c :: rest) 0 : Int)) else none
  | '+' :: c :: rest =>
    if c.isDigit then some ((leadDigitsGo (c :: rest) 0 : Int)) else none
  | c :: rest =>
    if c.isDigit then some ((leadDigitsGo (c :: rest) 0 : Int)) else none
  | [] => none

/-- validateFen's en-passant form: `^(-|[abcdefgh][36])$`. -/
def validEp (s : String) : Bool :=
  s == "-" ||
  (match s.toList with
   | [f, r] => fileChars.contains f && (r == '3' || r == '6')
   | _ => false)

/-- validateFen's castling form: no character outside `kKqQ-`. -/
def validCastle (s : String) : Bool :=
  s.toList.all fun c => c == 'k' || c == 'K' || c == 'q' || c == 'Q' || c == '-'

/-- The non-placement criteria of chess.js 1.x `validateFen`, plus its
string-level king count on the placement field: positive integer full-move
counter, non-negative half-move counter, well-formed en-passant field that is
consistent with the side to move, castling field over `kKqQ-`, side to move
`w` or `b`, and exactly one `K` and one `k` in the placement. -/
def fenChecksOk (placement turn castling ep half full : String) : Bool :=
  (match jsParseInt full with
   | some n => n > 0
   | none => false) &&
  (match jsParseInt half with
   | some n => n ≥ 0
   | none => false) &&
  validEp ep &&
  validCastle castling &&
  (turn == "w" || turn == "b") &&
  !((ep.toList.getD 1 ' ' == '3' && turn == "w") ||
    (ep.toList.getD 1 ' ' == '6' && turn == "b")) &&
  (placement.toList.count 'K' == 1) && (placement.toList.count 'k' == 1)

/-- Models `new Chess(fen)` in chess.js 1.x, which runs `validateFen` and
throws on failure: exactly six space-separated fields satisfying the
`fenChecksOk` criteria (counters, en-passant, castling, side to move, exactly
one king per side) with a placement of 8 ranks of 8 files each. The validated
non-placement fields are carried through as strings. -/
def parseFenFields : List String → Option ChessPos
  | [placement, turn, castling, ep, half, full] =>
    if fenChecksOk placement turn castling ep half full then
      (parseBoardField placement).map fun b =>
        { board := b, turn := turn, castling := castling, ep := ep,
          halfmove := half, fullmove := full }
    else none
  | _ => none

def parseFen (s : String) : Option ChessPos :=
  parseFenFields (splitSpaces s)

def emitRankGo (b : Board) (rc : Char) : List Char → Nat → List Char
  | [], n => if n = 0 then [] else [Char.ofNat (48 + n)]
  | f :: fs, n =>
    match boardGet b (String.mk [f, rc]) with
    | none => emitRankGo b rc fs (n + 1)
    | some p =>
      let pc := p.type.toList.headD '?'
      let pc := if p.color = "w" then pc.toUpper else pc
      (if n = 0 then [] else [Char.ofNat (48 + n)]) ++ pc :: emitRankGo b rc fs 0

def fenBoardField (b : Board) : String :=
  String.intercalate "/" (rankChars.map fun rc => String.mk (emitRankGo b rc fileChars 0))

/-- Models `game.fen()`. -/
def fenOf (g : ChessPos) : String :=
  joinSpaces [fenBoardField g.board, g.turn, g.castling, g.ep, g.halfmove, g.fullmove]

/-! ## Move matcher -/

/-- A chess.js verbose move (`from` is spelled `fromSq` since `from` is a
Lean keyword). -/
structure Move where
  lan : String
  san : String
  piece : String
  fromSq : String
  toSq : String
  promotion : Option String
  captured : Option String
  flags : String
deriving DecidableEq, Repr

/-- Models `isMoveMatch` (route lines 43–67). -/
def isMoveMatch (userInputClean : String) (move : Move) : Bool :=
  let lan := cleanMove move.lan
  let san := cleanMove move.san
  if lan == userInputClean then true
  else if san == userInputClean then true
  else if move.promotion.isSome &&
      ((strStarts lan userInputClean && userInputClean.length == 4) ||
       (strStarts san userInputClean && decide (userInputClean.length ≥ 3))) then true
  else
    let p := move.piece
    if p != "p" then
      let f := String.mk (move.fromSq.toList.take 1)
      let r := String.mk ((move.fromSq.toList.drop 1).take 1)
      let t := move.toSq
      [p ++ f ++ t, p ++ r ++ t, p ++ f ++ r ++ t].contains userInputClean
    else false

/-! ## Move-submission handler (`POST` of `src/app/api/move/route.ts`)

The Redis store view a single request touches, the responses the handler can
produce, and the write effects of the two Lua scripts. Interference by
concurrent submitters is modelled by an observation function: attempt `i`
sees `obs i` — the fen/meta read at the top of the loop, and the live values
the Lua scripts compare against at commit time. -/

def COOLDOWN_MS : Nat := 200

def MAX_RETRIES : Nat := 5

structure Meta where
  status : String
  winner : String
deriving DecidableEq, Repr

structure MoveInput where
  move : String
  team : String
  username : String
  gameId : String
deriving DecidableEq, Repr

/-- What one retry-loop iteration observes: the snapshot read at the top,
and the store contents the Lua scripts see when they execute. -/
structure Obs where
  readFen : Option String
  readMeta : Option Meta
  metaAtCommit : Meta
  fenAtCommit : Option String

/-- The JSON body + HTTP status of every `NextResponse.json` in the route. -/
structure HttpResp where
  status : Nat
  success : Bool
  message : Option String
  fen : Option String
  isGameOver : Option Bool
  winner : Option String
deriving DecidableEq, Repr

def missingResp : HttpResp := ⟨400, false, some "Missing fields", none, none, none⟩

def cooldownResp : HttpResp := ⟨429, false, some "Cooldown active", none, none, none⟩

def gameOverResp : HttpResp := ⟨400, false, some "Game Over", none, none, none⟩

def alreadyOverResp : HttpResp := ⟨400, false, some "Game already over", none, none, none⟩

def busyResp : HttpResp := ⟨409, false, some "Server busy, try again", none, none, none⟩

def errorResp : HttpResp := ⟨500, false, some "Error", none, none, none⟩

def winResp (team : String) : HttpResp := ⟨200, true, none, none, some true, some team⟩

def okMoveResp (newFen : String) : HttpResp := ⟨200, true, none, some newFen, none, none⟩

/-- The store writes a request can commit. `winCommit` is the `hset` of the
win Lua script (metadata only); `moveCommit` is the success branch of the
update Lua script (new fen + cooldown marker with expiry `px`; `captured`
is the broadcast payload field). -/
inductive Effect where
  | none
  | winCommit (winner : String)
  | moveCommit (newFen : String) (px : Nat) (captured : Option String)
deriving DecidableEq, Repr

/-- The external chess.js capability: legal-move generation and
`game.move(...)` application (`none` models a throw / falsy result). -/
structure Engine where
  moves : ChessPos → List Move
  applyMove : ChessPos → Move → Option ChessPos

/-- The win-claim Lua script (`route.ts` lines 157–164): returns 0 and leaves
the hash alone if the game is already finished, else sets
status=finished/winner and returns 1. -/
def runWinScript (meta : Meta) (team : String) : Nat × Meta :=
  if meta.status = "finished" then (0, meta)
  else (1, { status := "finished", winner := team })

/-- The enemy-king block of the regicide check (`route.ts` lines 137–149):
on the working copy, swap the enemy king for a decoy queen, look for a
matching move landing on the king's square, then undo the swap. -/
def regicideWork (eng : Engine) (g : ChessPos) (cleanedInput team ek : String) :
    Bool × ChessPos :=
  let step2 := posRemove g ek
  let enemyKingPiece := step2.1
  let g2 := step2.2
  let g3 := posPut g2 ek ⟨"q", otherTeam team⟩
  let killMoves := eng.moves g3
  let killShot := killMoves.find? fun m => isMoveMatch cleanedInput m && m.toSq == ek
  let g4 := (posRemove g3 ek).2
  let g5 := match enemyKingPiece with
    | some p => posPut g4 ek p
    | none => g4
  (killShot.isSome, g5)

/-- Regicide check (`route.ts` lines 123–151): skipped entirely when the
enemy king is absent; otherwise remove the own king first (unless the input
looks like a king move) and put it back after the decoy search. Returns the
flag and the cleaned-up working position. -/
def regicidePhase (eng : Engine) (game : ChessPos) (cleanedInput team : String)
    (myKingPos enemyKingPos : Option String) : Bool × ChessPos :=
  match enemyKingPos with
  | none => (false, game)
  | some ek =>
    let isKingMove := strStarts cleanedInput "k" ||
      (match myKingPos with
       | some mk => strStarts cleanedInput mk
       | none => false)
    match myKingPos with
    | some mk =>
      if !isKingMove then
        let r := posRemove game mk
        let w := regicideWork eng r.2 cleanedInput team ek
        (w.1, match r.1 with
              | some p => posPut w.2 mk p
              | none => w.2)
      else regicideWork eng game cleanedInput team ek
    | none => regicideWork eng game cleanedInput team ek

/-- Standard matching (`route.ts` lines 188–199): match against the legal
moves; if nothing matches, retry with the own king removed from the working
copy (shadow board). The king is put back in the source before execution, so
execution proceeds on the unmodified position. -/
def standardPhase (eng : Engine) (game : ChessPos) (cleanedInput : String)
    (myKingPos : Option String) : Option Move :=
  let standardMoves := eng.moves game
  match standardMoves.find? fun m => isMoveMatch cleanedInput m with
  | some md => some md
  | none =>
    match myKingPos with
    | none => none
    | some mk =>
      let g1 := (posRemove game mk).2
      let looseMoves := eng.moves g1
      looseMoves.find? fun m => isMoveMatch cleanedInput m

def castleRookMove (g : ChessPos) (fromSq toSq : String) : ChessPos :=
  let r := posRemove g fromSq
  match r.1 with
  | some rook => posPut r.2 toSq rook
  | none => r.2

/-- Execution (`route.ts` lines 210–235): try `game.move`; on failure force
the move manually by piece removal/placement, with promotion and castling
rook handling. Returns the resulting position and the captured-piece field. -/
def executeMove (eng : Engine) (game : ChessPos) (md : Move) (team : String) :
    ChessPos × Option String :=
  match eng.applyMove game md with
  | some g => (g, md.captured)
  | none =>
    let r1 := posRemove game md.fromSq
    let piece := r1.1
    let r2 := posRemove r1.2 md.toSq
    let target := r2.1
    let captured := match target with
      | some t => some t.type
      | none => md.captured
    let g3 := match piece with
      | some p =>
        let p2 := match md.promotion with
          | some pr => { p with type := pr }
          | none => p
        posPut r2.2 md.toSq p2
      | none => r2.2
    let g4 := if md.flags.toList.contains 'k' then
        castleRookMove g3 (if team = "w" then "h1" else "h8") (if team = "w" then "f1" else "f8")
      else g3
    let g5 := if md.flags.toList.contains 'q' then
        castleRookMove g4 (if team = "w" then "a1" else "a8") (if team = "w" then "d1" else "d8")
      else g4
    (g5, captured)

inductive StepRes where
  | done (r : HttpResp × Effect)
  | retryCAS

/-- One iteration of the retry loop (`route.ts` lines 95–278). A missing fen
or meta key throws "Game not found", which the outer catch turns into the
generic 500 response. -/
def attemptStep (eng : Engine) (inp : MoveInput) (o : Obs) : StepRes :=
  match o.readFen, o.readMeta with
  | some currentFen, some meta =>
    if meta.status = "finished" then .done (gameOverResp, Effect.none)
    else
      match parseFen (forceTurn currentFen inp.team) with
      | none => .done (errorResp, Effect.none)
      | some game0 =>
        let cleanedInput := cleanMove inp.move
        let myKingPos := findKing game0 inp.team
        let enemyKingPos := findKing game0 (otherTeam inp.team)
        let reg := regicidePhase eng game0 cleanedInput inp.team myKingPos enemyKingPos
        if reg.1 then
          let win := runWinScript o.metaAtCommit inp.team
          if win.1 = 1 then .done (winResp inp.team, Effect.winCommit inp.team)
          else .done (alreadyOverResp, Effect.none)
        else
          match standardPhase eng reg.2 cleanedInput myKingPos with
          | none => .done (busyResp, Effect.none)
          | some md =>
            let ex := executeMove eng reg.2 md inp.team
            let newFen := fenOf ex.1
            if o.fenAtCommit = some currentFen then
              .done (okMoveResp newFen, Effect.moveCommit newFen COOLDOWN_MS ex.2)
            else .retryCAS
  | _, _ => .done (errorResp, Effect.none)

def casLoop (eng : Engine) (inp : MoveInput) (obs : Nat → Obs) : Nat → Nat → HttpResp × Effect
  | _, 0 => (busyResp, Effect.none)
  | attempt, fuel + 1 =>
    match attemptStep eng inp (obs attempt) with
    | .done r => r
    | .retryCAS => casLoop eng inp obs (attempt + 1) fuel

/-- The whole `POST` handler: field check, rate-limiter check, then the
bounded CAS retry loop. -/
def runPOST (eng : Engine) (inp : MoveInput) (cooldown : Bool) (obs : Nat → Obs) :
    HttpResp × Effect :=
  if inp.move = "" ∨ inp.team = "" ∨ inp.username = "" ∨ inp.gameId = "" then
    (missingResp, Effect.none)
  else if cooldown then (cooldownResp, Effect.none)
  else casLoop eng inp obs 0 MAX_RETRIES

/-! ## Stats aggregator (`src/lib/stats.ts`)

`Math.random() > 0.8` in the BRICK badge is the one impure input: each
qualifying player triggers exactly one draw, so the random source is
modelled as a boolean draw per username, consulted only when the code
would call `Math.random()`. -/

structure Player where
  username : String
  team : String
  joinedAt : Nat
deriving DecidableEq, Repr

structure MoveLog where
  id : String
  move : String
  username : String
  team : String
  timestamp : Nat
  captured : Option String
deriving DecidableEq, Repr

structure PlayerStat where
  username : String
  team : String
  rank : Nat
  moves : Nat
  score : Nat
  kills : List String
  badges : List String
deriving DecidableEq, Repr

structure GameStats where
  winner : String
  whiteStats : List PlayerStat
  blackStats : List PlayerStat
  totalWhiteScore : Nat
  totalBlackScore : Nat
deriving DecidableEq, Repr

/-- The `POINTS` table; 0 plays the role of a missing (falsy) entry. -/
def POINTS (s : String) : Nat :=
  if s = "p" then 1
  else if s = "n" then 3
  else if s = "b" then 3
  else if s = "r" then 5
  else if s = "q" then 9
  else if s = "k" then 25
  else 0

/-- Models `statsMap.set` keyed by username: JS Maps keep the position of an
existing key and append new keys. -/
def upsertStat (l : List PlayerStat) (p : PlayerStat) : List PlayerStat :=
  match l with
  | [] => [p]
  | s :: rest => if s.username = p.username then p :: rest else s :: upsertStat rest p

def initStats (players : List Player) : List PlayerStat :=
  players.foldl (fun acc p => upsertStat acc ⟨p.username, p.team, 0, 0, 0, [], []⟩) []

def updateStat (l : List PlayerStat) (username : String) (f : PlayerStat → PlayerStat) :
    List PlayerStat :=
  match l with
  | [] => []
  | s :: rest => if s.username = username then f s :: rest else s :: updateStat rest username f

/-- One iteration of the history loop: bump the mover's move count and, when
a piece with a (truthy) point value was captured, record the kill. -/
def processLog (l : List PlayerStat) (log : MoveLog) : List PlayerStat :=
  updateStat l log.username fun stat =>
    let stat := { stat with moves := stat.moves + 1 }
    match log.captured with
    | some c =>
      if POINTS c ≠ 0 then
        { stat with kills := stat.kills ++ [c], score := stat.score + POINTS c }
      else stat
    | none => stat

/-- Models `kingslayerName`: the history loop overwrites, so the last `captured: k`
entry's author wins. -/
def kingslayerOf (history : List MoveLog) : Option String :=
  history.foldl (fun acc log => if log.captured = some "k" then some log.username else acc)
    none

/-- The `sortFn` comparator: score descending, then moves ascending. -/
def cmpStats (a b : PlayerStat) : Int :=
  if b.score ≠ a.score then (b.score : Int) - (a.score : Int)
  else (a.moves : Int) - (b.moves : Int)

def insertSorted (x : PlayerStat) : List PlayerStat → List PlayerStat
  | [] => [x]
  | y :: ys => if cmpStats y x < 0 then y :: insertSorted x ys else x :: y :: ys

/-- Since `Array.prototype.sort` with a consistent comparator is the unique stable
sort, realised here as stable insertion sort. -/
def sortStats : List PlayerStat → List PlayerStat
  | [] => []
  | x :: xs => insertSorted x (sortStats xs)

/-- The badge block of `calculateGameStats` for one already-sorted player at
its index, with the team context precomputed. -/
def assignBadges (stat : PlayerStat) (index : Nat) (isWinnerTeam : Bool) (maxMoves : Int)
    (kingslayerName : Option String) (draws : String → Bool) : PlayerStat :=
  let badges := stat.badges
  let badges := if kingslayerName = some stat.username then badges ++ ["KINGSLAYER"] else badges
  let badges := if isWinnerTeam ∧ index = 0 ∧ stat.score > 0 then badges ++ ["MVP"] else badges
  let badges := if ¬isWinnerTeam ∧ index = 0 ∧ stat.score > 10 then badges ++ ["WARLORD"]
    else badges
  let badges := if (stat.moves : Int) = maxMoves ∧ stat.moves > 5 then badges ++ ["SPRINTER"]
    else badges
  let badges := if stat.score ≥ 9 ∧ stat.moves < 10 then badges ++ ["SNIPER"] else badges
  let badges := if stat.moves > 8 ∧ stat.score = 0 then badges ++ ["PACIFIST"] else badges
  let badges := if stat.moves > 5 ∧ stat.score = 0 ∧ ¬(badges.contains "PACIFIST") ∧
      draws stat.username then badges ++ ["BRICK"] else badges
  let badges := if stat.moves < 2 then badges ++ ["GHOST"] else badges
  { stat with badges := badges }

/-- Models `teamStats.length > 0 && teamStats[0].team === winner`. -/
def teamIsWinner (teamStats : List PlayerStat) (winner : String) : Bool :=
  match teamStats with
  | [] => false
  | s :: _ => s.team = winner

/-- Models `let maxMoves = -1; teamStats.forEach(s => if (s.moves > maxMoves) ...)`. -/
def teamMaxMoves (teamStats : List PlayerStat) : Int :=
  teamStats.foldl (fun m s => if (s.moves : Int) > m then (s.moves : Int) else m) (-1 : Int)

def badgesForTeam (teamStats : List PlayerStat) (winner : String)
    (kingslayerName : Option String) (draws : String → Bool) : List PlayerStat :=
  teamStats.mapIdx fun i s =>
    assignBadges s i (teamIsWinner teamStats winner) (teamMaxMoves teamStats)
      kingslayerName draws

/-- Models `whiteStats.forEach((s, i) => (s.rank = i + 1))`: positional ranks. -/
def rankStep (i : Nat) (s : PlayerStat) : PlayerStat := { s with rank := i + 1 }

/-- Models `calculateGameStats` (stats.ts lines 19–145). -/
def calculateGameStats (history : List MoveLog) (players : List Player) (winner : String)
    (draws : String → Bool) : GameStats :=
  let base := initStats players
  let kingslayerName := kingslayerOf history
  let allStats := history.foldl processLog base
  let whiteSorted := sortStats (allStats.filter fun s => s.team == "w")
  let blackSorted := sortStats (allStats.filter fun s => s.team == "b")
  let whiteBadged := badgesForTeam whiteSorted winner kingslayerName draws
  let blackBadged := badgesForTeam blackSorted winner kingslayerName draws
  let whiteFinal := whiteBadged.mapIdx rankStep
  let blackFinal := blackBadged.mapIdx rankStep
  { winner := winner
    whiteStats := whiteFinal
    blackStats := blackFinal
    totalWhiteScore := whiteFinal.foldl (fun t s => t + s.score) 0
    totalBlackScore := blackFinal.foldl (fun t s => t + s.score) 0 }

/-! ## Replay kill-frame synthesis (`useCinematicReplay`, terminal frame)

The hook's final-frame block, starting from the pre-kill position
(`new Chess(moveLog.fen)`). Only legal-move generation comes from chess.js,
passed as `movesFn`. -/

/-- Every terminal result of one loop iteration, paired with its effect. -/
def okOutcome (re : HttpResp × Effect) : Prop :=
  re = (gameOverResp, Effect.none) ∨ re = (errorResp, Effect.none) ∨
  re = (busyResp, Effect.none) ∨ re = (alreadyOverResp, Effect.none) ∨
  (∃ w, re = (winResp w, Effect.winCommit w)) ∨
  (∃ f c, re = (okMoveResp f, Effect.moveCommit f COOLDOWN_MS c))

/-- The full response/effect enumeration of `runPOST`. -/
def postOutcome (re : HttpResp × Effect) : Prop :=
  re = (missingResp, Effect.none) ∨ re = (cooldownResp, Effect.none) ∨ okOutcome re

/-! ## Concrete fixtures for witnesses and counterexamples -/

def initFen : String := "rnbqkbnr/pppppppp/8/8/8/8/PPPPPPPP/RNBQKBNR w KQkq - 0 1"

/-- A position with the black king on e8 directly attackable by the white
rook on e7. -/
def regFen : String := "4k3/4R3/8/8/8/8/8/4K3 w - - 0 1"

/-- A stored FEN with a white king and pawn but no black king: chess.js's
FEN validation rejects it, so `new Chess` throws on it. -/
def plainFen : String := "8/8/8/8/8/8/P7/4K3 w - - 0 1"

/-- A valid sparse position: black king e8, white pawn a2, white king e1. -/
def kingsFen : String := "4k3/8/8/8/8/8/P7/4K3 w - - 0 1"

def mvE7E5 : Move := ⟨"e7e5", "e5", "p", "e7", "e5", none, none, "b"⟩

def mvRe8 : Move := ⟨"e7e8", "Rxe8", "r", "e7", "e8", none, some "q", "c"⟩

def mvA2A3 : Move := ⟨"a2a3", "a3", "p", "a2", "a3", none, none, "n"⟩

/-- Engine stub that generates the black double-step e7e5 whenever black is
to move and the squares allow it. -/
def pushEngine : Engine :=
  { moves := fun g =>
      if g.turn = "b" ∧ boardGet g.board "e7" = some ⟨"p", "b"⟩ ∧
          boardGet g.board "e5" = Option.none then [mvE7E5] else []
    applyMove := fun _ _ => none }

/-- Engine stub that offers the rook capture of e8 exactly when the decoy
queen stands there. -/
def regEngine : Engine :=
  { moves := fun g => if boardGet g.board "e8" = some ⟨"q", "b"⟩ then [mvRe8] else []
    applyMove := fun _ _ => none }

/-- Engine stub always offering the pawn push a2a3. -/
def pawnEngine : Engine := { moves := fun _ => [mvA2A3], applyMove := fun _ _ => none }

def inpRe8 : MoveInput := ⟨"re8", "w", "u", "g"⟩

def inpA2A3 : MoveInput := ⟨"a2a3", "w", "u", "g"⟩

def inpE7E5 : MoveInput := ⟨"e7e5", "b", "u", "g"⟩

/-- A well-formed submission whose text matches no move in any notation. -/
def inpZz : MoveInput := ⟨"zz9", "w", "u", "g"⟩

def obsInit : Obs := ⟨some initFen, some ⟨"playing", "none"⟩, ⟨"playing", "none"⟩, some initFen⟩

def obsFinished : Obs := ⟨some regFen, some ⟨"finished", "b"⟩, ⟨"finished", "b"⟩, some regFen⟩

def obsPlain : Obs := ⟨some plainFen, some ⟨"playing", "none"⟩, ⟨"playing", "none"⟩, some plainFen⟩

def obsKings : Obs := ⟨some kingsFen, some ⟨"playing", "none"⟩, ⟨"playing", "none"⟩, some kingsFen⟩

/-- The CAS comparison always sees a changed fen: every commit attempt loses. -/
def obsKingsStale : Obs := ⟨some kingsFen, some ⟨"playing", "none"⟩, ⟨"playing", "none"⟩, some "x"⟩

/-- Unknown game id: neither fen nor meta key exists. -/
def obsGone : Obs := ⟨none, none, ⟨"playing", "none"⟩, none⟩

/-- The claim's enumerated acceptance forms, written from the spec's words:
exact cleaned long-form equality; exact cleaned short-form equality; for
promotions, the bare from-to coordinates (4 characters) as a prefix of the
full notation; for non-pawn pieces, the three disambiguation shapes
piece+file+target, piece+rank+target, piece+square+target. -/
def claimedMatchForms (u : String) (m : Move) : Bool :=
  (cleanMove m.lan == u) || (cleanMove m.san == u) ||
  (m.promotion.isSome && (strStarts (cleanMove m.lan) u && u.length == 4)) ||
  (m.piece != "p" &&
    [m.piece ++ String.mk (m.fromSq.toList.take 1) ++ m.toSq,
     m.piece ++ String.mk ((m.fromSq.toList.drop 1).take 1) ++ m.toSq,
     m.piece ++ String.mk (m.fromSq.toList.take 1) ++
       String.mk ((m.fromSq.toList.drop 1).take 1) ++ m.toSq].contains u)

/-- A chess.js promotion capture: `fxe8=Q`. -/
def promoCaptureMove : Move := ⟨"f7e8q", "fxe8=Q", "p", "f7", "e8", some "q", some "r", "cp"⟩

/-- The initial position as parsed by the handler after forcing black to
move. -/
def posInitB : ChessPos :=
  (parseFen (forceTurn initFen "b")).getD ⟨[], "b", "-", "-", "0", "1"⟩

/-! ## Claim C6 -/

def alice : Player := ⟨"alice", "w", 0⟩

def bob : Player := ⟨"bob", "w", 1⟩

/-- Six non-capturing moves by alice: makes her BRICK-eligible
(moves > 5, score 0, no PACIFIST). -/
def hist6 : List MoveLog := List.replicate 6 ⟨"x", "a3", "alice", "w", 1, Option.none⟩

/-- A Position in which the black king is absent, handed to the regicide
detector directly (the parser can never produce one). -/
def noBlackKingPos : ChessPos :=
  ⟨[("e1", ⟨"k", "w"⟩), ("a2", ⟨"p", "w"⟩)], "w", "-", "-", "0", "1"⟩

/-- The initial position as the parser reads it (white to move). -/
def posInitW : ChessPos :=
  (parseFen initFen).getD ⟨[], "w", "-", "-", "0", "1"⟩

/-- The stats of the two-player white roster with alice's six quiet moves. -/
def gs9 : GameStats := calculateGameStats hist6 [alice, bob] "w" fun _ => false

/-! ## Claim C10 -/

theorem withBoard_turn (g : ChessPos) (b : Board) : ({ g with board := b } : ChessPos).turn = g.turn := rfl

theorem withBoard_castling (g : ChessPos) (b : Board) :
    ({ g with board := b } : ChessPos).castling = g.castling := rfl

theorem attemptStep_ok (eng : Engine) (inp : MoveInput) (o : Obs) (re : HttpResp × Effect)
    (h : attemptStep eng inp o = .done re) : okOutcome re := by
  unfold attemptStep at h
  rcases hfen : o.readFen with _ | currentFen <;>
    rcases hmeta : o.readMeta with _ | meta <;>
    simp only [hfen, hmeta] at h
  · injection h with h
    subst h
    exact Or.inr (Or.inl rfl)
  · injection h with h
    subst h
    exact Or.inr (Or.inl rfl)
  · injection h with h
    subst h
    exact Or.inr (Or.inl rfl)
  · by_cases hst : meta.status = "finished"
    · rw [if_pos hst] at h
      injection h with h
      subst h
      exact Or.inl rfl
    · rw [if_neg hst] at h
      cases hp : parseFen (forceTurn currentFen inp.team) with
      | none =>
        simp only [hp] at h
        injection h with h
        subst h
        exact Or.inr (Or.inl rfl)
      | some game0 =>
        simp only [hp] at h
        by_cases hreg : (regicidePhase eng game0 (cleanMove inp.move) inp.team
            (findKing game0 inp.team) (findKing game0 (otherTeam inp.team))).1 = true
        · rw [if_pos hreg] at h
          by_cases hwin : (runWinScript o.metaAtCommit inp.team).1 = 1
          · rw [if_pos hwin] at h
            injection h with h
            subst h
            exact Or.inr (Or.inr (Or.inr (Or.inr (Or.inl ⟨inp.team, rfl⟩))))
          · rw [if_neg hwin] at h
            injection h with h
            subst h
            exact Or.inr (Or.inr (Or.inr (Or.inl rfl)))
        · rw [if_neg hreg] at h
          cases hsp : standardPhase eng (regicidePhase eng game0 (cleanMove inp.move) inp.team
              (findKing game0 inp.team) (findKing game0 (otherTeam inp.team))).2
              (cleanMove inp.move) (findKing game0 inp.team) with
          | none =>
            simp only [hsp] at h
            injection h with h
            subst h
            exact Or.inr (Or.inr (Or.inl rfl))
          | some md =>
            simp only [hsp] at h
            by_cases hcas : o.fenAtCommit = some currentFen
            · rw [if_pos hcas] at h
              injection h with h
              subst h
              exact Or.inr (Or.inr (Or.inr (Or.inr (Or.inr ⟨_, _, rfl⟩))))
            · rw [if_neg hcas] at h
              exact StepRes.noConfusion h

theorem casLoop_ok (eng : Engine) (inp : MoveInput) (obs : Nat → Obs) :
    ∀ fuel attempt, okOutcome (casLoop eng inp obs attempt fuel) := by
  intro fuel
  induction fuel with
  | zero => exact fun _ => Or.inr (Or.inr (Or.inl rfl))
  | succ fuel ih =>
    intro attempt
    unfold casLoop
    cases hstep : attemptStep eng inp (obs attempt) with
    | done r => exact attemptStep_ok eng inp (obs attempt) r hstep
    | retryCAS => exact ih (attempt + 1)

theorem runPOST_ok (eng : Engine) (inp : MoveInput) (cooldown : Bool) (obs : Nat → Obs) :
    postOutcome (runPOST eng inp cooldown obs) := by
  unfold runPOST
  by_cases hmiss : inp.move = "" ∨ inp.team = "" ∨ inp.username = "" ∨ inp.gameId = ""
  · rw [if_pos hmiss]
    exact Or.inl rfl
  · rw [if_neg hmiss]
    cases cooldown with
    | true => exact Or.inr (Or.inl rfl)
    | false =>
      simp only [Bool.false_eq_true, if_false]
      exact Or.inr (Or.inr (casLoop_ok eng inp obs MAX_RETRIES 0))

/-! ## Claim C1 -/

/-- C1 (amended): once a game's status is `finished`, every move
submission that passes field validation and the rate limiter is rejected with
the Game-Over response and writes nothing, so the recorded winner is never
changed; and the win script, observing an already-finished status, returns 0
and leaves the meta hash (status and winner) exactly as it was. (Submissions
stopped earlier receive the missing-fields or cooldown error instead — see the
counterexample.) -/
theorem claim_c1_finished_terminal :
    (∀ eng inp obs f m, inp.move ≠ "" → inp.team ≠ "" → inp.username ≠ "" → inp.gameId ≠ "" →
      (obs 0).readFen = some f → (obs 0).readMeta = some m → m.status = "finished" →
      runPOST eng inp false obs = (gameOverResp, Effect.none)) ∧
    (∀ m team, m.status = "finished" → runWinScript m team = (0, m)) := by
  constructor
  · intro eng inp obs f m h1 h2 h3 h4 hf hm hst
    unfold runPOST
    rw [if_neg (by simp [h1, h2, h3, h4]), if_neg (by simp)]
    have hmax : MAX_RETRIES = 4 + 1 := rfl
    rw [hmax]
    unfold casLoop
    have hstep : attemptStep eng inp (obs 0) = .done (gameOverResp, Effect.none) := by
      unfold attemptStep
      simp only [hf, hm]
      rw [if_pos hst]
    rw [hstep]
  · intro m team h
    unfold runWinScript
    rw [if_pos h]

theorem claim_c1_witness :
    runPOST regEngine inpRe8 false (fun _ => obsFinished) = (gameOverResp, Effect.none) ∧
    runWinScript ⟨"finished", "b"⟩ "w" = (0, ⟨"finished", "b"⟩) :=
  ⟨claim_c1_finished_terminal.1 regEngine inpRe8 (fun _ => obsFinished) regFen ⟨"finished", "b"⟩
      (by decide) (by decide) (by decide) (by decide) rfl rfl rfl,
    claim_c1_finished_terminal.2 ⟨"finished", "b"⟩ "w" rfl⟩

/-- C1 counterexample: with the game already finished but the submitting
player still under cooldown, the submission is rejected with the cooldown
error, not the already-finished error — refuting "every further move
submission … is rejected with an already-finished error". -/
theorem claim_c1_counterexample :
    runPOST regEngine inpRe8 true (fun _ => obsFinished) = (cooldownResp, Effect.none) ∧
    cooldownResp ≠ gameOverResp := by
  exact ⟨by decide, by decide⟩

/-! ## Claim C2 -/

/-- C2 (amended): every run of the handler produces exactly one of the
eight literal response/effect pairs enumerated by `postOutcome`: missing
fields (400), cooldown (429), game over (400), internal error (500), busy
(409), already over (400), win accepted (200, metadata-only effect) and move
accepted (200, fen+cooldown effect). An unmatched move and an exhausted CAS
budget share the single busy response, and an unknown game id shares the
generic internal-error response (see the counterexample). -/
theorem claim_c2_outcome_enumeration (eng : Engine) (inp : MoveInput) (cooldown : Bool)
    (obs : Nat → Obs) : postOutcome (runPOST eng inp cooldown obs) :=
  runPOST_ok eng inp cooldown obs

/-- C2 counterexample: a submission matching no legal move (even after
the shadow-board retry) and a submission that exhausted the CAS retry budget
return the identical 409 response, and an unknown game id returns the same
500 response as any other internal error — refuting the claimed pairwise
distinguishability. -/
theorem claim_c2_counterexample :
    runPOST pawnEngine inpZz false (fun _ => obsKings) = (busyResp, Effect.none) ∧
    runPOST pawnEngine inpA2A3 false (fun _ => obsKingsStale) = (busyResp, Effect.none) ∧
    runPOST pawnEngine inpA2A3 false (fun _ => obsGone) = (errorResp, Effect.none) :=
  ⟨by decide, by decide, by decide⟩

/-! ## Claim C3 -/

/-- C4 (amended): the matcher accepts exactly the claim's enumerated
forms plus one further promotion form: any normalized input of length at
least 3 that is a prefix of the cleaned short-form algebraic notation. -/
theorem claim_c4_matcher_forms (u : String) (m : Move) :
    isMoveMatch u m =
      (claimedMatchForms u m ||
        (m.promotion.isSome && (strStarts (cleanMove m.san) u && decide (u.length ≥ 3)))) := by
  unfold isMoveMatch claimedMatchForms
  cases hA1 : (cleanMove m.lan == u) <;>
    cases hA2 : (cleanMove m.san == u) <;>
    cases hP : m.promotion.isSome <;>
    cases hL : strStarts (cleanMove m.lan) u <;>
    cases hS : strStarts (cleanMove m.san) u <;>
    cases hL4 : (u.length == 4) <;>
    cases hS3 : (decide (u.length ≥ 3)) <;>
    cases hNP : (m.piece != "p") <;>
    simp [hA1, hA2, hP, hL, hS, hL4, hS3, hNP]

/-- C4 counterexample: the input `fe8` against the promotion move
`fxe8=Q` is accepted by the matcher (length-3 prefix of the cleaned san
`fe8q`) but matches none of the claim's enumerated forms. -/
theorem claim_c4_counterexample :
    isMoveMatch "fe8" promoCaptureMove = true ∧
    claimedMatchForms "fe8" promoCaptureMove = false :=
  ⟨by decide, by decide⟩

/-! ## Claim C5 -/

theorem splitCh_ne_nil (cs : List Char) : splitCh cs ≠ [] := by
  induction cs with
  | nil => simp [splitCh]
  | cons c cs ih =>
    unfold splitCh
    by_cases hc : c = ' '
    · simp [hc]
    · rw [if_neg hc]
      cases hsp : splitCh cs with
      | nil => simp
      | cons w ws => simp

theorem mem_splitCh_no_space (cs : List Char) : ∀ w ∈ splitCh cs, ' ' ∉ w := by
  induction cs with
  | nil =>
    intro w hw
    simp only [splitCh, List.mem_singleton] at hw
    simp [hw]
  | cons c cs ih =>
    intro w hw
    unfold splitCh at hw
    by_cases hc : c = ' '
    · rw [if_pos hc] at hw
      rcases List.mem_cons.mp hw with rfl | hw2
      · simp
      · exact ih w hw2
    · rw [if_neg hc] at hw
      cases hsp : splitCh cs with
      | nil => exact absurd hsp (splitCh_ne_nil cs)
      | cons v vs =>
        rw [hsp] at hw
        rcases List.mem_cons.mp hw with rfl | hw2
        · intro hsp2
          rcases List.mem_cons.mp hsp2 with h | h
          · exact hc h.symm
          · exact ih v (by rw [hsp]; exact List.mem_cons_self v vs) h
        · exact ih w (by rw [hsp]; exact List.mem_cons_of_mem v hw2)

theorem splitCh_no_space (w : List Char) (hw : ' ' ∉ w) : splitCh w = [w] := by
  induction w with
  | nil => rfl
  | cons c cs ih =>
    have hc : ¬c = ' ' := fun h => hw (h ▸ List.mem_cons_self c cs)
    unfold splitCh
    rw [if_neg hc, ih fun h => hw (List.mem_cons_of_mem c h)]

theorem splitCh_word_append (w rest : List Char) (hw : ' ' ∉ w) :
    splitCh (w ++ ' ' :: rest) = w :: splitCh rest := by
  induction w with
  | nil => simp [splitCh]
  | cons c cs ih =>
    have hc : ¬c = ' ' := fun h => hw (h ▸ List.mem_cons_self c cs)
    have ih2 := ih fun h => hw (List.mem_cons_of_mem c h)
    show splitCh (c :: (cs ++ ' ' :: rest)) = (c :: cs) :: splitCh rest
    conv_lhs => unfold splitCh
    rw [if_neg hc, ih2]

theorem splitCh_joinCh (L : List (List Char)) (hL : L ≠ []) (hw : ∀ w ∈ L, ' ' ∉ w) :
    splitCh (joinCh L) = L := by
  induction L with
  | nil => exact absurd rfl hL
  | cons w ws ih =>
    cases ws with
    | nil => exact splitCh_no_space w (hw w (List.mem_cons_self w []))
    | cons v vs =>
      show splitCh (w ++ ' ' :: joinCh (v :: vs)) = w :: v :: vs
      rw [splitCh_word_append w _ (hw w (List.mem_cons_self w (v :: vs))),
        ih (by simp) fun u hu => hw u (List.mem_cons_of_mem w hu)]

theorem splitSpaces_joinSpaces (l : List String) (hl : l ≠ [])
    (hw : ∀ s ∈ l, ' ' ∉ s.toList) : splitSpaces (joinSpaces l) = l := by
  show (splitCh (joinCh (l.map String.toList))).map String.mk = l
  rw [splitCh_joinCh (l.map String.toList) (by simpa using hl)
    (fun w hwm => by
      obtain ⟨s, hs, rfl⟩ := List.mem_map.mp hwm
      exact hw s hs)]
  rw [List.map_map]
  have hcomp : String.mk ∘ String.toList = id := funext fun s => rfl
  rw [hcomp, List.map_id]

theorem setIdxJS_ne_nil (l : List String) (x : String) (hl : l ≠ []) : setIdxJS l 1 x ≠ [] := by
  unfold setIdxJS
  split
  · intro h
    have := congrArg List.length h
    simp only [List.length_set, List.length_nil] at this
    exact hl (List.length_eq_zero.mp this)
  · simp

theorem mem_setIdxJS (l : List String) (x s : String) (h : s ∈ setIdxJS l 1 x) :
    s ∈ l ∨ s = x ∨ s = "" := by
  unfold setIdxJS at h
  split at h
  · rcases List.mem_or_eq_of_mem_set h with h2 | h2
    · exact Or.inl h2
    · exact Or.inr (Or.inl h2)
  · rcases List.mem_append.mp h with h2 | h2
    · rcases List.mem_append.mp h2 with h3 | h3
      · exact Or.inl h3
      · exact Or.inr (Or.inr (List.eq_of_mem_replicate h3))
    · exact Or.inr (Or.inl (List.mem_singleton.mp h2))

theorem setIdxJS_idx1 (l : List String) (x : String) (hl : l ≠ []) :
    (setIdxJS l 1 x)[1]? = some x := by
  unfold setIdxJS
  split
  · exact List.getElem?_set_eq_of_lt x (by assumption)
  · have hlen : l.length = 1 := by
      have h0 : l.length ≠ 0 := fun h => hl (List.length_eq_zero.mp h)
      omega
    obtain ⟨a, rfl⟩ := List.length_eq_one.mp hlen
    simp

/-- C5: the handler forces the snapshot's side-to-move: whenever the
forced FEN parses, the parsed position's turn field is the submitting team;
consequently a legal black move against the initial position (white to move,
no white move committed) is accepted with a 200 response rather than
rejected for wrong turn. -/
theorem claim_c5_forced_turn :
    (∀ fen team pos, (team = "w" ∨ team = "b") →
      parseFen (forceTurn fen team) = some pos → pos.turn = team) ∧
    ((runPOST pushEngine inpE7E5 false fun _ => obsInit).1.success = true ∧
      (runPOST pushEngine inpE7E5 false fun _ => obsInit).1.status = 200) := by
  constructor
  · intro fen team pos hteam hp
    have hparts : splitSpaces fen ≠ [] := by
      unfold splitSpaces
      simp [splitCh_ne_nil]
    have hLne : setIdxJS (splitSpaces fen) 1 team ≠ [] := setIdxJS_ne_nil _ _ hparts
    have hLw : ∀ s ∈ setIdxJS (splitSpaces fen) 1 team, ' ' ∉ s.toList := by
      intro s hs
      rcases mem_setIdxJS _ _ _ hs with h2 | h2 | h2
      · obtain ⟨w, hwm, rfl⟩ := List.mem_map.mp h2
        simpa using mem_splitCh_no_space fen.toList w hwm
      · subst h2
        rcases hteam with rfl | rfl <;> decide
      · subst h2
        decide
    have hsplit : splitSpaces (forceTurn fen team) = setIdxJS (splitSpaces fen) 1 team :=
      splitSpaces_joinSpaces _ hLne hLw
    have hidx := setIdxJS_idx1 (splitSpaces fen) team hparts
    unfold parseFen at hp
    rw [hsplit] at hp
    rcases hL6 : setIdxJS (splitSpaces fen) 1 team with _ |
      ⟨a, _ | ⟨b, _ | ⟨c, _ | ⟨d, _ | ⟨e, _ | ⟨f0, _ | ⟨g0, rest2⟩⟩⟩⟩⟩⟩⟩ <;>
      rw [hL6] at hp hidx
    · simp at hidx
    · simp at hidx
    · exact absurd hp (by simp [parseFenFields])
    · exact absurd hp (by simp [parseFenFields])
    · exact absurd hp (by simp [parseFenFields])
    · exact absurd hp (by simp [parseFenFields])
    · -- the exactly-six-fields case
      simp only [List.getElem?_cons_succ, List.getElem?_cons_zero, Option.some.injEq] at hidx
      subst hidx
      simp only [parseFenFields] at hp
      by_cases ht : fenChecksOk a b c d e f0 = true
      · rw [if_pos ht] at hp
        cases hb : parseBoardField a with
        | none => rw [hb] at hp; exact absurd hp (by simp)
        | some bd =>
          rw [hb] at hp
          have heq : ({ board := bd, turn := b, castling := c, ep := d,
                        halfmove := e, fullmove := f0 } : ChessPos) = pos := by
            simpa using hp
          rw [← heq]
      · rw [if_neg ht] at hp
        exact absurd hp (by simp)
    · exact absurd hp (by simp [parseFenFields])

  · exact ⟨by decide, by decide⟩

theorem claim_c5_witness :
    ("b" = "w" ∨ "b" = "b") ∧ posInitB.turn = "b" :=
  ⟨Or.inr rfl, claim_c5_forced_turn.1 initFen "b" posInitB (Or.inr rfl) (by decide)⟩

/-- C7 (code bug): the Stats Aggregator is not deterministic — the BRICK
badge consults `Math.random()`, so identical history, roster and winner can
produce different badge sets depending on the random draws. -/
theorem claim_c7_badges_not_deterministic :
    calculateGameStats hist6 [alice, bob] "w" (fun _ => false) ≠
    calculateGameStats hist6 [alice, bob] "w" (fun _ => true) := by decide

/-! ## Claim C8 -/

theorem strmk_inj {l1 l2 : List Char} (h : String.mk l1 = String.mk l2) : l1 = l2 := by
  injection h

theorem splitChSlash_ne_nil (l : List Char) : splitChSlash l ≠ [] := by
  cases l with
  | nil => simp [splitChSlash]
  | cons c cs =>
    unfold splitChSlash
    by_cases hc : c = '/'
    · rw [if_pos hc]
      simp
    · rw [if_neg hc]
      cases h : splitChSlash cs with
      | nil => simp
      | cons w ws => simp

theorem mem_splitChSlash (c : Char) (hne : c ≠ '/') :
    ∀ l : List Char, c ∈ l → ∃ w ∈ splitChSlash l, c ∈ w := by
  intro l
  induction l with
  | nil => intro h; exact absurd h (List.not_mem_nil c)
  | cons c2 cs ih =>
    intro hmem
    unfold splitChSlash
    by_cases hc2 : c2 = '/'
    · rw [if_pos hc2]
      have hcs : c ∈ cs := by
        rcases List.mem_cons.mp hmem with h | h
        · exact absurd (h.trans hc2) hne
        · exact h
      obtain ⟨w, hw, hcw⟩ := ih hcs
      exact ⟨w, List.mem_cons_of_mem _ hw, hcw⟩
    · rw [if_neg hc2]
      rcases hsp : splitChSlash cs with _ | ⟨w, ws⟩
      · exact absurd hsp (splitChSlash_ne_nil cs)
      · rcases List.mem_cons.mp hmem with h | h
        · exact ⟨c2 :: w, List.mem_cons_self _ _, by rw [h]; exact List.mem_cons_self _ _⟩
        · obtain ⟨w2, hw2, hcw2⟩ := ih h
          rw [hsp] at hw2
          rcases List.mem_cons.mp hw2 with h2 | h2
          · refine ⟨c2 :: w, List.mem_cons_self _ _, List.mem_cons_of_mem _ ?_⟩
            rw [← h2]
            exact hcw2
          · exact ⟨w2, List.mem_cons_of_mem _ h2, hcw2⟩

theorem fileChars_getD_inj :
    ∀ i, i < 8 → ∀ j, j < 8 → fileChars.getD i ' ' = fileChars.getD j ' ' → i = j := by
  decide

theorem parseRankChars_files :
    ∀ (l : List Char) (fi : Nat) (pd : Bool) (entries : List (Char × Piece)),
      parseRankChars l fi pd = some entries →
      ∀ e ∈ entries, ∃ j, fi ≤ j ∧ j < 8 ∧ e.1 = fileChars.getD j ' ' := by
  intro l
  induction l with
  | nil =>
    intro fi pd entries h e he
    unfold parseRankChars at h
    by_cases hfi : fi = 8
    · rw [if_pos hfi] at h
      injection h with h
      rw [← h] at he
      exact absurd he (List.not_mem_nil e)
    · rw [if_neg hfi] at h
      exact Option.noConfusion h
  | cons c rest ih =>
    intro fi pd entries h e he
    unfold parseRankChars at h
    by_cases hdig : c.isDigit = true
    · rw [if_pos hdig] at h
      cases pd with
      | true =>
        rw [if_pos rfl] at h
        exact Option.noConfusion h
      | false =>
        rw [if_neg Bool.false_ne_true] at h
        by_cases hle : fi + (c.toNat - 48) ≤ 8
        · rw [if_pos hle] at h
          obtain ⟨j, hj1, hj2, hj3⟩ := ih _ _ _ h e he
          exact ⟨j, Nat.le_trans (Nat.le_add_right fi _) hj1, hj2, hj3⟩
        · rw [if_neg hle] at h
          exact Option.noConfusion h
    · rw [if_neg hdig] at h
      rcases hpc : pieceOfChar c with _ | p
      · rw [hpc] at h
        exact Option.noConfusion h
      · simp only [hpc] at h
        by_cases hfi8 : fi < 8
        · rw [if_pos hfi8] at h
          obtain ⟨es, hes, hcons⟩ := Option.map_eq_some'.mp h
          rw [← hcons] at he
          rcases List.mem_cons.mp he with hee | hee
          · exact ⟨fi, Nat.le_refl fi, hfi8, by rw [hee]⟩
          · obtain ⟨j, hj1, hj2, hj3⟩ := ih _ _ _ hes e hee
            exact ⟨j, Nat.le_trans (Nat.le_succ fi) hj1, hj2, hj3⟩
        · rw [if_neg hfi8] at h
          exact Option.noConfusion h

theorem parseRankChars_pairwise :
    ∀ (l : List Char) (fi : Nat) (pd : Bool) (entries : List (Char × Piece)),
      parseRankChars l fi pd = some entries →
      entries.Pairwise fun e1 e2 => e1.1 ≠ e2.1 := by
  intro l
  induction l with
  | nil =>
    intro fi pd entries h
    unfold parseRankChars at h
    by_cases hfi : fi = 8
    · rw [if_pos hfi] at h
      injection h with h
      rw [← h]
      exact List.Pairwise.nil
    · rw [if_neg hfi] at h
      exact Option.noConfusion h
  | cons c rest ih =>
    intro fi pd entries h
    unfold parseRankChars at h
    by_cases hdig : c.isDigit = true
    · rw [if_pos hdig] at h
      cases pd with
      | true =>
        rw [if_pos rfl] at h
        exact Option.noConfusion h
      | false =>
        rw [if_neg Bool.false_ne_true] at h
        by_cases hle : fi + (c.toNat - 48) ≤ 8
        · rw [if_pos hle] at h
          exact ih _ _ _ h
        · rw [if_neg hle] at h
          exact Option.noConfusion h
    · rw [if_neg hdig] at h
      rcases hpc : pieceOfChar c with _ | p
      · rw [hpc] at h
        exact Option.noConfusion h
      · simp only [hpc] at h
        by_cases hfi8 : fi < 8
        · rw [if_pos hfi8] at h
          obtain ⟨es, hes, hcons⟩ := Option.map_eq_some'.mp h
          rw [← hcons]
          refine List.Pairwise.cons ?_ (ih _ _ _ hes)
          intro e2 he2
          obtain ⟨j, hj1, hj2, hj3⟩ := parseRankChars_files rest (fi + 1) false es hes e2 he2
          show fileChars.getD fi ' ' ≠ e2.1
          rw [hj3]
          intro heq
          have h2 := fileChars_getD_inj fi hfi8 j hj2 heq
          omega
        · rw [if_neg hfi8] at h
          exact Option.noConfusion h

theorem parseRankChars_mem_piece (c0 : Char) (p : Piece)
    (hd0 : c0.isDigit = false) (hp0 : pieceOfChar c0 = some p) :
    ∀ (l : List Char) (fi : Nat) (pd : Bool) (entries : List (Char × Piece)),
      parseRankChars l fi pd = some entries → c0 ∈ l →
      ∃ j, j < 8 ∧ (fileChars.getD j ' ', p) ∈ entries := by
  intro l
  induction l with
  | nil =>
    intro fi pd entries h hmem
    exact absurd hmem (List.not_mem_nil c0)
  | cons c rest ih =>
    intro fi pd entries h hmem
    unfold parseRankChars at h
    by_cases hdig : c.isDigit = true
    · rw [if_pos hdig] at h
      have hne : c0 ≠ c := by
        intro he
        rw [he] at hd0
        rw [hd0] at hdig
        exact Bool.noConfusion hdig
      have hrest : c0 ∈ rest := by
        rcases List.mem_cons.mp hmem with he | he
        · exact absurd he hne
        · exact he
      cases pd with
      | true =>
        rw [if_pos rfl] at h
        exact Option.noConfusion h
      | false =>
        rw [if_neg Bool.false_ne_true] at h
        by_cases hle : fi + (c.toNat - 48) ≤ 8
        · rw [if_pos hle] at h
          exact ih _ _ _ h hrest
        · rw [if_neg hle] at h
          exact Option.noConfusion h
    · rw [if_neg hdig] at h
      rcases hpc : pieceOfChar c with _ | p2
      · rw [hpc] at h
        exact Option.noConfusion h
      · simp only [hpc] at h
        by_cases hfi8 : fi < 8
        · rw [if_pos hfi8] at h
          obtain ⟨es, hes, hcons⟩ := Option.map_eq_some'.mp h
          by_cases hcc : c0 = c
          · refine ⟨fi, hfi8, ?_⟩
            have hpp : p2 = p := by
              rw [← hcc] at hpc
              rw [hp0] at hpc
              injection hpc with h2
              exact h2.symm
            rw [← hcons, hpp]
            exact List.mem_cons_self _ _
          · have hrest : c0 ∈ rest := by
              rcases List.mem_cons.mp hmem with he | he
              · exact absurd he hcc
              · exact he
            obtain ⟨j, hj1, hj2⟩ := ih _ _ _ hes hrest
            rw [← hcons]
            exact ⟨j, hj1, List.mem_cons_of_mem _ hj2⟩
        · rw [if_neg hfi8] at h
          exact Option.noConfusion h

theorem parseRanks_mem :
    ∀ (chunks : List String) (rcs : List Char) (bd : Board),
      parseRanks chunks rcs = some bd →
      ∀ w ∈ chunks, ∃ rc, rc ∈ rcs ∧ ∃ entries,
        parseRankChars w.toList 0 false = some entries ∧
        ∀ e ∈ entries, (String.mk [e.1, rc], e.2) ∈ bd := by
  intro chunks
  induction chunks with
  | nil =>
    intro rcs bd h w hw
    exact absurd hw (List.not_mem_nil w)
  | cons rs restS ih =>
    intro rcs bd h w hw
    cases rcs with
    | nil => exact Option.noConfusion h
    | cons rc restC =>
      unfold parseRanks at h
      rcases hpr : parseRankChars rs.toList 0 false with _ | entries
      · rw [hpr] at h
        exact Option.noConfusion h
      · rw [hpr] at h
        rcases hrest : parseRanks restS restC with _ | b2
        · rw [hrest] at h
          exact Option.noConfusion h
        · rw [hrest] at h
          injection h with h
          rcases List.mem_cons.mp hw with hww | hww
          · refine ⟨rc, List.mem_cons_self _ _, entries, ?_, ?_⟩
            · rw [hww]
              exact hpr
            · intro e he
              rw [← h]
              exact List.mem_append_left _ (List.mem_map_of_mem _ he)
          · obtain ⟨rc2, hrc2, entries2, hpe2, hmem2⟩ := ih restC b2 hrest w hww
            refine ⟨rc2, List.mem_cons_of_mem _ hrc2, entries2, hpe2, ?_⟩
            intro e he
            rw [← h]
            exact List.mem_append_right _ (hmem2 e he)

theorem parseRanks_keys :
    ∀ (chunks : List String) (rcs : List Char) (bd : Board),
      parseRanks chunks rcs = some bd →
      ∀ e ∈ bd, ∃ f rc, rc ∈ rcs ∧ e.1 = String.mk [f, rc] := by
  intro chunks
  induction chunks with
  | nil =>
    intro rcs bd h e he
    cases rcs with
    | nil =>
      unfold parseRanks at h
      injection h with h
      rw [← h] at he
      exact absurd he (List.not_mem_nil e)
    | cons rc restC => exact Option.noConfusion h
  | cons rs restS ih =>
    intro rcs bd h e he
    cases rcs with
    | nil => exact Option.noConfusion h
    | cons rc restC =>
      unfold parseRanks at h
      rcases hpr : parseRankChars rs.toList 0 false with _ | entries
      · rw [hpr] at h
        exact Option.noConfusion h
      · rw [hpr] at h
        rcases hrest : parseRanks restS restC with _ | b2
        · rw [hrest] at h
          exact Option.noConfusion h
        · rw [hrest] at h
          injection h with h
          rw [← h] at he
          rcases List.mem_append.mp he with hm | hm
          · obtain ⟨e2, he2, heq⟩ := List.mem_map.mp hm
            exact ⟨e2.1, rc, List.mem_cons_self _ _, by rw [← heq]⟩
          · obtain ⟨f, rc2, hrc2, heq⟩ := ih restC b2 hrest e hm
            exact ⟨f, rc2, List.mem_cons_of_mem _ hrc2, heq⟩

theorem parseRanks_pairwise :
    ∀ (chunks : List String) (rcs : List Char) (bd : Board),
      parseRanks chunks rcs = some bd → rcs.Nodup →
      bd.Pairwise fun e1 e2 => e1.1 ≠ e2.1 := by
  intro chunks
  induction chunks with
  | nil =>
    intro rcs bd h hnd
    cases rcs with
    | nil =>
      unfold parseRanks at h
      injection h with h
      rw [← h]
      exact List.Pairwise.nil
    | cons rc restC => exact Option.noConfusion h
  | cons rs restS ih =>
    intro rcs bd h hnd
    cases rcs with
    | nil => exact Option.noConfusion h
    | cons rc restC =>
      unfold parseRanks at h
      rcases hpr : parseRankChars rs.toList 0 false with _ | entries
      · rw [hpr] at h
        exact Option.noConfusion h
      · rw [hpr] at h
        rcases hrest : parseRanks restS restC with _ | b2
        · rw [hrest] at h
          exact Option.noConfusion h
        · rw [hrest] at h
          injection h with h
          rw [← h]
          obtain ⟨hrcn, hnd2⟩ := List.nodup_cons.mp hnd
          refine List.pairwise_append.mpr ⟨?_, ih restC b2 hrest hnd2, ?_⟩
          · refine List.Pairwise.map _ ?_
              (parseRankChars_pairwise rs.toList 0 false entries hpr)
            intro a b hab heq
            have h2 := strmk_inj heq
            injection h2 with h3 h4
            exact hab h3
          · intro a ha b hb
            obtain ⟨e2, he2, heqa⟩ := List.mem_map.mp ha
            obtain ⟨f, rc2, hrc2, heqb⟩ := parseRanks_keys restS restC b2 hrest b hb
            rw [← heqa]
            show String.mk [e2.1, rc] ≠ b.1
            rw [heqb]
            intro heq
            have h2 := strmk_inj heq
            injection h2 with h3 h4
            injection h4 with h5 h6
            apply hrcn
            rw [h5]
            exact hrc2

theorem boardGet_of_mem_pairwise :
    ∀ (b : Board) (sq : String) (p : Piece),
      (sq, p) ∈ b → (b.Pairwise fun e1 e2 => e1.1 ≠ e2.1) →
      boardGet b sq = some p := by
  intro b
  induction b with
  | nil =>
    intro sq p hmem hpw
    exact absurd hmem (List.not_mem_nil _)
  | cons e rest ih =>
    intro sq p hmem hpw
    rcases List.mem_cons.mp hmem with he | he
    · unfold boardGet
      rw [List.find?_cons_of_pos]
      · rw [← he]
        rfl
      · rw [← he]
        simp
    · have hne : e.1 ≠ sq := (List.pairwise_cons.mp hpw).1 (sq, p) he
      unfold boardGet
      rw [List.find?_cons_of_neg]
      · exact ih sq p he (List.pairwise_cons.mp hpw).2
      · simp only [beq_iff_eq]
        exact hne

theorem parseBoardField_king (a : String) (bd : Board) (c0 : Char) (p : Piece)
    (hb : parseBoardField a = some bd) (hc : c0 ∈ a.toList)
    (hd0 : c0.isDigit = false) (hsl : c0 ≠ '/') (hp0 : pieceOfChar c0 = some p) :
    ∃ sq, sq ∈ squares64 ∧ boardGet bd sq = some p := by
  unfold parseBoardField at hb
  obtain ⟨w, hw, hcw⟩ := mem_splitChSlash c0 hsl a.toList hc
  have hwm : String.mk w ∈ (splitChSlash a.toList).map String.mk :=
    List.mem_map_of_mem _ hw
  obtain ⟨rc, hrc, entries, hpe, hmem⟩ :=
    parseRanks_mem ((splitChSlash a.toList).map String.mk) rankChars bd hb (String.mk w) hwm
  have htl : (String.mk w).toList = w := rfl
  rw [htl] at hpe
  obtain ⟨j, hj8, hjm⟩ := parseRankChars_mem_piece c0 p hd0 hp0 w 0 false entries hpe hcw
  have hkey : (String.mk [fileChars.getD j ' ', rc], p) ∈ bd := hmem _ hjm
  have hpw : bd.Pairwise fun e1 e2 => e1.1 ≠ e2.1 :=
    parseRanks_pairwise ((splitChSlash a.toList).map String.mk) rankChars bd hb (by decide)
  refine ⟨String.mk [fileChars.getD j ' ', rc], ?_,
    boardGet_of_mem_pairwise bd _ p hkey hpw⟩
  unfold squares64
  rw [List.mem_flatMap]
  refine ⟨rc, hrc, ?_⟩
  rw [List.mem_map]
  refine ⟨fileChars.getD j ' ', ?_, rfl⟩
  have hlen : j < fileChars.length := by
    have h8 : fileChars.length = 8 := rfl
    omega
  rw [List.getD_eq_getElem fileChars ' ' hlen]
  exact List.getElem_mem hlen

theorem findKing_ne_none_of_get (g : ChessPos) (color sq : String)
    (hsq : sq ∈ squares64) (hget : boardGet g.board sq = some ⟨"k", color⟩) :
    findKing g color ≠ Option.none := by
  intro hnone
  unfold findKing at hnone
  have h2 := List.find?_eq_none.mp hnone sq hsq
  apply h2
  show (match boardGet g.board sq with
        | some p => p.type == "k" && p.color == color
        | none => false) = true
  rw [hget]
  simp

theorem parseFen_kings : ∀ fen pos, parseFen fen = some pos →
    findKing pos "w" ≠ Option.none ∧ findKing pos "b" ≠ Option.none := by
  intro fen pos hp
  unfold parseFen at hp
  rcases hL : splitSpaces fen with _ |
    ⟨a, _ | ⟨b, _ | ⟨c, _ | ⟨d, _ | ⟨e, _ | ⟨f0, _ | ⟨g0, rest2⟩⟩⟩⟩⟩⟩⟩ <;>
    rw [hL] at hp
  · exact absurd hp (by simp [parseFenFields])
  · exact absurd hp (by simp [parseFenFields])
  · exact absurd hp (by simp [parseFenFields])
  · exact absurd hp (by simp [parseFenFields])
  · exact absurd hp (by simp [parseFenFields])
  · exact absurd hp (by simp [parseFenFields])
  · simp only [parseFenFields] at hp
    by_cases ht : fenChecksOk a b c d e f0 = true
    · rw [if_pos ht] at hp
      rcases hbf : parseBoardField a with _ | bd
      · rw [hbf] at hp
        exact absurd hp (by simp)
      · rw [hbf] at hp
        injection hp with hp
        have hKw : a.toList.count 'K' = 1 := by
          simp only [fenChecksOk, Bool.and_eq_true] at ht
          simpa using ht.1.2
        have hKb : a.toList.count 'k' = 1 := by
          simp only [fenChecksOk, Bool.and_eq_true] at ht
          simpa using ht.2
        have hmw : 'K' ∈ a.toList := List.count_pos_iff.mp (by omega)
        have hmb : 'k' ∈ a.toList := List.count_pos_iff.mp (by omega)
        obtain ⟨sqw, hsqw, hgw⟩ :=
          parseBoardField_king a bd 'K' ⟨"k", "w"⟩ hbf hmw (by decide) (by decide) (by decide)
        obtain ⟨sqb, hsqb, hgb⟩ :=
          parseBoardField_king a bd 'k' ⟨"k", "b"⟩ hbf hmb (by decide) (by decide) (by decide)
        rw [← hp]
        exact ⟨findKing_ne_none_of_get ⟨bd, b, c, d, e, f0⟩ "w" sqw hsqw hgw,
          findKing_ne_none_of_get ⟨bd, b, c, d, e, f0⟩ "b" sqb hsqb hgb⟩
    · rw [if_neg ht] at hp
      exact absurd hp (by simp)
  · exact absurd hp (by simp [parseFenFields])

/-- C8 (amended): the claim's defensive case does not exist in the program.
chess.js validates the FEN on construction and requires exactly one king per
side, so (1) every position the handler successfully parses contains both
kings — the enemy-king-absent state is unreachable after parsing; (2) a
stored FEN that fails to parse, for example one missing a king, aborts the
submission with the generic 500 error response instead of reaching the
detector; and (3) the guard itself, were it ever reached with the enemy king
absent, would skip the regicide detector with no win reported and the
position untouched, falling through to standard move validation rather than
treating the submission as already-won. -/
theorem claim_c8_absent_king_skips_regicide :
    (∀ fen pos, parseFen fen = some pos →
      findKing pos "w" ≠ Option.none ∧ findKing pos "b" ≠ Option.none) ∧
    (∀ eng g ci team mkOpt, regicidePhase eng g ci team mkOpt Option.none = (false, g)) ∧
    (∀ eng inp (obs : Nat → Obs) f m,
      inp.move ≠ "" → inp.team ≠ "" → inp.username ≠ "" → inp.gameId ≠ "" →
      (obs 0).readFen = some f → (obs 0).readMeta = some m → m.status ≠ "finished" →
      parseFen (forceTurn f inp.team) = Option.none →
      runPOST eng inp false obs = (errorResp, Effect.none)) := by
  refine ⟨parseFen_kings, ?_, ?_⟩
  · intro eng g ci team mkOpt
    rfl
  · intro eng inp obs f m h1 h2 h3 h4 hf hm hst hparse
    unfold runPOST
    rw [if_neg (by simp [h1, h2, h3, h4])]
    simp only [Bool.false_eq_true, if_false]
    have hmax : MAX_RETRIES = 4 + 1 := rfl
    rw [hmax]
    unfold casLoop
    have hstep : attemptStep eng inp (obs 0) = .done (errorResp, Effect.none) := by
      unfold attemptStep
      simp only [hf, hm]
      rw [if_neg hst, hparse]
    rw [hstep]

theorem claim_c8_witness :
    (parseFen initFen = some posInitW ∧
      findKing posInitW "w" ≠ Option.none ∧ findKing posInitW "b" ≠ Option.none) ∧
    regicidePhase pawnEngine posInitW "a2a3" "w" (some "e1") Option.none =
      (false, posInitW) ∧
    runPOST pawnEngine inpA2A3 false (fun _ => obsPlain) = (errorResp, Effect.none) :=
  ⟨⟨by decide, claim_c8_absent_king_skips_regicide.1 initFen posInitW (by decide)⟩,
    claim_c8_absent_king_skips_regicide.2.1 pawnEngine posInitW "a2a3" "w" (some "e1"),
    claim_c8_absent_king_skips_regicide.2.2 pawnEngine inpA2A3 (fun _ => obsPlain)
      plainFen ⟨"playing", "none"⟩ (by decide) (by decide) (by decide) (by decide)
      rfl rfl (by decide) (by decide)⟩

/-- C8 counterexample: handed a Position with the black king absent, the
detector reports no win and leaves the position untouched — it falls through
to standard validation instead of treating the submission as already-won —
and a stored FEN without a black king never reaches the detector at all: the
submission aborts with the 500 error response, which is none of the
already-won responses. -/
theorem claim_c8_counterexample :
    findKing noBlackKingPos "b" = Option.none ∧
    regicidePhase pawnEngine noBlackKingPos "a2a3" "w" (findKing noBlackKingPos "w")
      (findKing noBlackKingPos "b") = (false, noBlackKingPos) ∧
    runPOST pawnEngine inpA2A3 false (fun _ => obsPlain) ≠ (winResp "w", Effect.winCommit "w") ∧
    runPOST pawnEngine inpA2A3 false (fun _ => obsPlain) ≠ (alreadyOverResp, Effect.none) ∧
    runPOST pawnEngine inpA2A3 false (fun _ => obsPlain) ≠ (gameOverResp, Effect.none) :=
  ⟨by decide, by decide, by decide, by decide, by decide⟩

/-! ## Claim C9 -/

theorem cmpStats_neg (a b : PlayerStat) : cmpStats a b = -cmpStats b a := by
  unfold cmpStats
  by_cases h : b.score = a.score
  · have h1 : ¬b.score ≠ a.score := fun hh => hh h
    have h2 : ¬a.score ≠ b.score := fun hh => hh h.symm
    rw [if_neg h1, if_neg h2]
    omega
  · have h2 : a.score ≠ b.score := fun hh => h hh.symm
    rw [if_pos h, if_pos h2]
    omega

theorem cmpStats_nonpos_iff (a b : PlayerStat) :
    cmpStats a b ≤ 0 ↔ b.score < a.score ∨ (b.score = a.score ∧ a.moves ≤ b.moves) := by
  unfold cmpStats
  by_cases h : b.score = a.score
  · have h1 : ¬b.score ≠ a.score := fun hh => hh h
    rw [if_neg h1]
    omega
  · rw [if_pos h]
    omega

theorem cmpStats_trans (a b c : PlayerStat) (h1 : cmpStats a b ≤ 0) (h2 : cmpStats b c ≤ 0) :
    cmpStats a c ≤ 0 := by
  rw [cmpStats_nonpos_iff] at h1 h2 ⊢
  omega

theorem cmpStats_total (a b : PlayerStat) (h : ¬cmpStats a b < 0) : cmpStats b a ≤ 0 := by
  have := cmpStats_neg a b
  omega

theorem insertSorted_mem (x a : PlayerStat) (l : List PlayerStat) :
    a ∈ insertSorted x l ↔ a = x ∨ a ∈ l := by
  induction l with
  | nil => simp [insertSorted]
  | cons y ys ih =>
    unfold insertSorted
    by_cases h : cmpStats y x < 0
    · rw [if_pos h]
      simp only [List.mem_cons, ih]
      tauto
    · rw [if_neg h]
      simp only [List.mem_cons]

theorem insertSorted_pairwise (x : PlayerStat) (l : List PlayerStat)
    (hl : l.Pairwise fun a b => cmpStats a b ≤ 0) :
    (insertSorted x l).Pairwise fun a b => cmpStats a b ≤ 0 := by
  induction l with
  | nil => simp [insertSorted]
  | cons y ys ih =>
    rw [List.pairwise_cons] at hl
    obtain ⟨hy, hys⟩ := hl
    unfold insertSorted
    by_cases h : cmpStats y x < 0
    · rw [if_pos h, List.pairwise_cons]
      refine ⟨?_, ih hys⟩
      intro z hz
      rcases (insertSorted_mem x z ys).mp hz with rfl | hz2
      · exact le_of_lt h
      · exact hy z hz2
    · rw [if_neg h, List.pairwise_cons]
      refine ⟨?_, List.pairwise_cons.mpr ⟨hy, hys⟩⟩
      intro z hz
      rcases List.mem_cons.mp hz with rfl | hz2
      · exact cmpStats_total _ _ h
      · exact cmpStats_trans x y z (cmpStats_total y x h) (hy z hz2)

theorem sortStats_pairwise (l : List PlayerStat) :
    (sortStats l).Pairwise fun a b => cmpStats a b ≤ 0 := by
  induction l with
  | nil => simp [sortStats]
  | cons x xs ih => exact insertSorted_pairwise x (sortStats xs) ih

theorem sortStats_mem (l : List PlayerStat) (a : PlayerStat) : a ∈ sortStats l ↔ a ∈ l := by
  induction l with
  | nil => simp [sortStats]
  | cons x xs ih =>
    unfold sortStats
    rw [insertSorted_mem]
    simp [ih]

theorem pipeline_get_fields (ts : List PlayerStat) (winner : String) (ks : Option String)
    (d : String → Bool) (i : Nat)
    (hif : i < ((badgesForTeam ts winner ks d).mapIdx rankStep).length) :
    ∃ (hi : i < ts.length),
      (((badgesForTeam ts winner ks d).mapIdx rankStep).get ⟨i, hif⟩).rank = i + 1 ∧
      (((badgesForTeam ts winner ks d).mapIdx rankStep).get ⟨i, hif⟩).score
        = (ts.get ⟨i, hi⟩).score ∧
      (((badgesForTeam ts winner ks d).mapIdx rankStep).get ⟨i, hif⟩).moves
        = (ts.get ⟨i, hi⟩).moves ∧
      (((badgesForTeam ts winner ks d).mapIdx rankStep).get ⟨i, hif⟩).team
        = (ts.get ⟨i, hi⟩).team := by
  have hlb : (badgesForTeam ts winner ks d).length = ts.length := List.length_mapIdx
  have hi : i < ts.length := by
    rw [List.length_mapIdx, hlb] at hif
    exact hif
  have hb : i < (badgesForTeam ts winner ks d).length := by
    rw [hlb]
    exact hi
  have h1 : ((badgesForTeam ts winner ks d).mapIdx rankStep).get ⟨i, hif⟩
      = rankStep i ((badgesForTeam ts winner ks d).get ⟨i, hb⟩) :=
    List.get_mapIdx _ rankStep i hb hif
  have h2 : (badgesForTeam ts winner ks d).get ⟨i, hb⟩
      = assignBadges (ts.get ⟨i, hi⟩) i (teamIsWinner ts winner) (teamMaxMoves ts) ks d :=
    List.get_mapIdx ts _ i hi hb
  refine ⟨hi, ?_, ?_, ?_, ?_⟩ <;> rw [h1, h2] <;> rfl

/-- C9 (amended): the Stats Aggregator partitions players by team, sorts
each team by score descending with ties broken by fewer moves first, and
assigns positional (ordinal) per-team ranks `index + 1` starting at 1 —
players with equal sort keys receive distinct consecutive ranks, not a shared
dense rank (see the counterexample). -/
theorem claim_c9_rank_and_sort (history : List MoveLog) (players : List Player)
    (winner : String) (draws : String → Bool) :
    (∀ s ∈ (calculateGameStats history players winner draws).whiteStats, s.team = "w") ∧
    (∀ s ∈ (calculateGameStats history players winner draws).blackStats, s.team = "b") ∧
    List.Pairwise (fun a b => b.score < a.score ∨ (b.score = a.score ∧ a.moves ≤ b.moves))
      (calculateGameStats history players winner draws).whiteStats ∧
    List.Pairwise (fun a b => b.score < a.score ∨ (b.score = a.score ∧ a.moves ≤ b.moves))
      (calculateGameStats history players winner draws).blackStats ∧
    (∀ i (hi : i < (calculateGameStats history players winner draws).whiteStats.length),
      ((calculateGameStats history players winner draws).whiteStats.get ⟨i, hi⟩).rank
        = i + 1) ∧
    (∀ i (hi : i < (calculateGameStats history players winner draws).blackStats.length),
      ((calculateGameStats history players winner draws).blackStats.get ⟨i, hi⟩).rank
        = i + 1) := by
  have hteamof : ∀ (tm : String) (ts : List PlayerStat),
      (∀ s ∈ ts, s.team = tm) →
      ∀ s ∈ (badgesForTeam ts winner (kingslayerOf history) draws).mapIdx rankStep,
        s.team = tm := by
    intro tm ts hts s hs
    obtain ⟨n, hn⟩ := List.mem_iff_get.mp hs
    obtain ⟨hi, _, _, _, hteam⟩ :=
      pipeline_get_fields ts winner (kingslayerOf history) draws n.val n.isLt
    rw [← hn]
    rw [hteam]
    exact hts _ (List.get_mem ts n.val hi)
  have hsortedof : ∀ ts : List PlayerStat,
      List.Pairwise (fun a b => b.score < a.score ∨ (b.score = a.score ∧ a.moves ≤ b.moves))
        ((badgesForTeam (sortStats ts) winner (kingslayerOf history) draws).mapIdx rankStep) := by
    intro ts
    rw [List.pairwise_iff_get]
    intro a b hab
    obtain ⟨hia, _, hsa, hma, _⟩ :=
      pipeline_get_fields (sortStats ts) winner (kingslayerOf history) draws a.val a.isLt
    obtain ⟨hib, _, hsb, hmb, _⟩ :=
      pipeline_get_fields (sortStats ts) winner (kingslayerOf history) draws b.val b.isLt
    have hp := List.pairwise_iff_get.mp (sortStats_pairwise ts) ⟨a.val, hia⟩ ⟨b.val, hib⟩ hab
    rw [cmpStats_nonpos_iff] at hp
    rw [hsa, hsb, hma, hmb]
    exact hp
  have hrankof : ∀ ts : List PlayerStat,
      ∀ i (hi : i < ((badgesForTeam ts winner (kingslayerOf history) draws).mapIdx
          rankStep).length),
      (((badgesForTeam ts winner (kingslayerOf history) draws).mapIdx rankStep).get
        ⟨i, hi⟩).rank = i + 1 := by
    intro ts i hi
    obtain ⟨_, hrank, _, _, _⟩ :=
      pipeline_get_fields ts winner (kingslayerOf history) draws i hi
    exact hrank
  have hfmemw : ∀ s ∈ sortStats (((history.foldl processLog (initStats players)).filter
      fun s => s.team == "w")), s.team = "w" := by
    intro s hs
    have h2 := (sortStats_mem _ s).mp hs
    have h3 := List.mem_filter.mp h2
    exact beq_iff_eq.mp h3.2
  have hfmemb : ∀ s ∈ sortStats (((history.foldl processLog (initStats players)).filter
      fun s => s.team == "b")), s.team = "b" := by
    intro s hs
    have h2 := (sortStats_mem _ s).mp hs
    have h3 := List.mem_filter.mp h2
    exact beq_iff_eq.mp h3.2
  exact ⟨hteamof "w" _ hfmemw, hteamof "b" _ hfmemb, hsortedof _, hsortedof _,
    hrankof _, hrankof _⟩

theorem claim_c9_witness :
    (gs9.whiteStats.get ⟨0, by decide⟩).rank = 0 + 1 ∧
    (gs9.whiteStats.get ⟨1, by decide⟩).rank = 1 + 1 ∧
    (gs9.whiteStats.get ⟨0, by decide⟩).team = "w" :=
  ⟨(claim_c9_rank_and_sort hist6 [alice, bob] "w" fun _ => false).2.2.2.2.1 0 (by decide),
    (claim_c9_rank_and_sort hist6 [alice, bob] "w" fun _ => false).2.2.2.2.1 1 (by decide),
    (claim_c9_rank_and_sort hist6 [alice, bob] "w" fun _ => false).1
      (gs9.whiteStats.get ⟨0, by decide⟩) (List.get_mem _ 0 (by decide))⟩

/-- C9 counterexample: two players with identical sort keys (equal score
and equal move count) receive ranks 1 and 2 — under dense ranking both would
receive rank 1. -/
theorem claim_c9_counterexample :
    ((calculateGameStats [] [alice, bob] "w" fun _ => false).whiteStats.map
      fun s => (s.score, s.moves, s.rank)) = [(0, 0, 1), (0, 0, 2)] := by decide

end SpamChess
